import Mathlib

/-!
Shallow embedding of the `uniparse` CSV nested-structure reconstruction core
(`src/reader/reader.go`, package `parser`): structure inference
(`getCSVStructure`), record reassembly (`recordToMap`) and the batch driver
(`ToMap`).

Go `map[string]T` values are modelled as association lists
`List (String × T)` with unique keys; map assignment is `aset`
(replace-or-append) and map read is `alookup`.  A `for k := range m` loop
iterates the association list in list order: since Go's map iteration order
is unspecified, an association list represents one concrete enumeration of
the map, and properties that must hold for the Go program regardless of
iteration order are quantified over all association lists (permutations)
representing the same map.

Go run-time panics (out-of-range slice indexing) are modelled by the
`GoResult.panic` constructor; all other paths of the embedded functions
return `GoResult.ok` (the Go source never returns a non-nil error from
these functions).

Strings are manipulated through explicit models of the Go standard library
calls used by the source: `strings.Split` (`strSplit`), `strings.Join`
(`strJoin`), `strings.Replace` with count -1 (`goReplaceAll`),
`strconv.Atoi` (`atoi`) and `strconv.Itoa` (`itoa`).  All definitions are
structural (fuel-based where the Go loop is unbounded) so that concrete
runs evaluate by `decide`/`rfl`; every fuel bound is large enough that
exhaustion is unreachable, which is proved where a claim depends on it.
-/

namespace Uniparse

/-- Result of running a piece of Go code that can only exit by returning
normally or by panicking at run time. -/
inductive GoResult (α : Type) where
  | panic : GoResult α
  | ok (a : α) : GoResult α
  deriving DecidableEq, Repr

/-- Go map read `m[k]` (presence form): first binding for `k` in the
association list. -/
def alookup {α : Type} : List (String × α) → String → Option α
  | [], _ => none
  | (k', v) :: t, k => if k' = k then some v else alookup t k

/-- Go map assignment `m[k] = v`: replace the binding in place, or append a
new binding when the key is absent. -/
def aset {α : Type} : List (String × α) → String → α → List (String × α)
  | [], k, v => [(k, v)]
  | (k', v') :: t, k, v => if k' = k then (k, v) :: t else (k', v') :: aset t k v

/-- Does `p` occur at the head of `s`?  Model of the prefix test inside
Go `strings.Split`. -/
def startsWithL : List Char → List Char → Bool
  | [], _ => true
  | _ :: _, [] => false
  | a :: as, b :: bs => a = b && startsWithL as bs

/-- Worker for `strSplit`: cut `s` at every non-overlapping leftmost
occurrence of `sep`, accumulating the current segment reversed in `acc`.
The fuel is `s.length + 1`, enough for any nonempty separator. -/
def splitAux (sep : List Char) : Nat → List Char → List Char → List (List Char)
  | 0, acc, s => [acc.reverse ++ s]
  | fuel + 1, acc, s =>
    match s with
    | [] => [acc.reverse]
    | c :: rest =>
      if startsWithL sep s then
        acc.reverse :: splitAux sep fuel [] (s.drop sep.length)
      else
        splitAux sep fuel (c :: acc) rest

/-- Model of Go `strings.Split(s, sep)` for a nonempty separator. -/
def strSplit (s sep : String) : List String :=
  (splitAux sep.data (s.data.length + 1) [] s.data).map fun l => ⟨l⟩

/-- Model of Go `strings.Join(parts, sep)`. -/
def joinL (sep : List Char) : List (List Char) → List Char
  | [] => []
  | [x] => x
  | x :: xs => x ++ sep ++ joinL sep xs

/-- String-level wrapper for `joinL`. -/
def strJoin (parts : List String) (sep : String) : String :=
  ⟨joinL sep.data (parts.map String.data)⟩

/-- Model of Go `strings.Replace(s, old, new, -1)` (replace all
non-overlapping leftmost occurrences) for a nonempty `old`. -/
def goReplaceAll (old new : List Char) : Nat → List Char → List Char
  | 0, s => s
  | fuel + 1, s =>
    match s with
    | [] => []
    | c :: rest =>
      if startsWithL old s then
        new ++ goReplaceAll old new fuel (s.drop old.length)
      else
        c :: goReplaceAll old new fuel rest

/-- ASCII decimal digit test used by the `strconv` models. -/
def isDigit10 (c : Char) : Bool := 48 ≤ c.toNat && c.toNat ≤ 57

/-- Numeric value of a list of decimal digit characters, most significant
first. -/
def digitsVal (l : List Char) : Nat :=
  l.foldl (fun a c => a * 10 + (c.toNat - 48)) 0

/-- Model of Go `strconv.Atoi` (= `strconv.ParseInt(s, 10, 0)` with 64-bit
`int`): an optional `+`/`-` sign followed by at least one ASCII decimal
digit, with the resulting value required to fit in a signed 64-bit integer.
Returns `none` exactly when Go returns a non-nil error. -/
def atoi (s : String) : Option Int :=
  let signDs : Bool × List Char :=
    match s.data with
    | '+' :: t => (false, t)
    | '-' :: t => (true, t)
    | t => (false, t)
  let ds := signDs.2
  if ds = [] then none
  else if ds.all isDigit10 then
    let mag : Int := (digitsVal ds : Nat)
    let v : Int := if signDs.1 then -mag else mag
    if -9223372036854775808 ≤ v ∧ v ≤ 9223372036854775807 then some v else none
  else none

/-- Decimal digit character for a value below ten. -/
def digitChar10 : Nat → Char
  | 0 => '0' | 1 => '1' | 2 => '2' | 3 => '3' | 4 => '4'
  | 5 => '5' | 6 => '6' | 7 => '7' | 8 => '8' | _ => '9'

/-- Worker for `itoa`; fuel `n + 1` suffices since the recursion divides by
ten. -/
def toDigitsAux : Nat → Nat → List Char
  | 0, _ => []
  | fuel + 1, n =>
    if n < 10 then [digitChar10 n]
    else toDigitsAux fuel (n / 10) ++ [digitChar10 (n % 10)]

/-- Model of Go `strconv.Itoa` on the non-negative integers (the source
only converts slice indices, which are non-negative). -/
def itoa (n : Nat) : String := ⟨toDigitsAux (n + 1) n⟩

/-- A flat record: one CSV row as a Go `map[string]string`, represented as
an association list in one arbitrary iteration order. -/
abbrev FlatRecord := List (String × String)

/-- One reconstructed array entry: a Go `map[string]string` sub-object. -/
abbrev SubObj := List (String × String)

/-- A reconstructed nested value: either a scalar string or an array of
sub-objects (the two shapes `recordToMap` stores in its result map). -/
inductive NestedValue where
  | str (s : String) : NestedValue
  | arr (a : List SubObj) : NestedValue
  deriving DecidableEq, Repr

/-- The nested record produced for one flat record. -/
abbrev NestedRecord := List (String × NestedValue)

/-- Parser options of the Go `parser.CSVOptions` (the `StructTag` field is
used only by the `ToStruct` layer and is not part of the core model). -/
structure CSVOptions where
  ArrayDelimiter : String
  IndexPos : Nat
  deriving DecidableEq, Repr

/-- Model of the Go `NewCSV` defaulting: empty delimiter becomes `"."`,
index position `0` becomes `1`. -/
def NewCSV (options : CSVOptions) : CSVOptions :=
  { ArrayDelimiter := if options.ArrayDelimiter = "" then "." else options.ArrayDelimiter
    IndexPos := if options.IndexPos = 0 then 1 else options.IndexPos }

/-- Insert a sub-field name at the end of a group's sub-field list unless
already present: the `isSubkeyPresent` scan plus conditional `append` of
`getCSVStructure`. -/
def subKeysInsert (l : List String) (s : String) : List String :=
  if s ∈ l then l else l ++ [s]

/-- Body of the `for k := range example` loop of `getCSVStructure`,
processing one key `k` of the example record against the accumulated
`recordStructure`. -/
def inferStep (opts : CSVOptions) (st : List (String × List String)) (k : String) :
    List (String × List String) :=
  let keyParts := strSplit k opts.ArrayDelimiter
  if keyParts.length ≤ opts.IndexPos then
    aset st k []
  else
    match atoi (keyParts.getD opts.IndexPos "") with
    | some _ =>
      let key := strJoin (keyParts.take opts.IndexPos) opts.ArrayDelimiter
      let subKey := strJoin (keyParts.drop (opts.IndexPos + 1)) opts.ArrayDelimiter
      match alookup st key with
      | none => aset st key [subKey]
      | some l => aset st key (subKeysInsert l subKey)
    | none => aset st k []

/-- Go `getCSVStructure`: fold `inferStep` over the keys of the example
record, in the record's iteration order, starting from the empty map. -/
def getCSVStructure (opts : CSVOptions) (ex : FlatRecord) :
    List (String × List String) :=
  ex.foldl (fun st kv => inferStep opts st kv.1) []

/-- The composite probe key
`strings.Join([]string{key, strconv.Itoa(idx), subKey}, delimiter)`. -/
def compositeKey (opts : CSVOptions) (key : String) (idx : Nat) (subKey : String) :
    String :=
  strJoin [key, itoa idx, subKey] opts.ArrayDelimiter

/-- Length-probing loop of `recordToMap`: count successive indices (from
`len`) whose composite key for the first sub-field is present.  Fuel
`record.length + 1` is enough because each successful probe consumes a
distinct key of the record. -/
def probeLenAux (opts : CSVOptions) (record : FlatRecord) (key subKey : String) :
    Nat → Nat → Nat
  | 0, len => len
  | fuel + 1, len =>
    match alookup record (compositeKey opts key len subKey) with
    | none => len
    | some _ => probeLenAux opts record key subKey fuel (len + 1)

/-- Array length for a group key, probed with the first sub-field name. -/
def probeLen (opts : CSVOptions) (record : FlatRecord) (key subKey : String) : Nat :=
  probeLenAux opts record key subKey (record.length + 1) 0

/-- Fill loop for one sub-field name of `recordToMap`: walk indices from
`index` while the composite key is present, writing into
`keyData[index]`; Go panics (index out of range) when the key is present
at an index not below `keyData`'s length. -/
def fillSubAux (opts : CSVOptions) (record : FlatRecord) (key subKey : String) :
    Nat → Nat → List SubObj → GoResult (List SubObj)
  | 0, _, kd => .ok kd
  | fuel + 1, index, kd =>
    match alookup record (compositeKey opts key index subKey) with
    | none => .ok kd
    | some val =>
      if h : index < kd.length then
        fillSubAux opts record key subKey fuel (index + 1)
          (kd.set index (aset (kd.get ⟨index, h⟩) subKey val))
      else .panic

/-- The `for _, subKey := range subKeys` loop of `recordToMap`, running the
fill loop for every sub-field name in order. -/
def fillAll (opts : CSVOptions) (record : FlatRecord) (key : String) :
    List String → List SubObj → GoResult (List SubObj)
  | [], kd => .ok kd
  | sk :: rest, kd =>
    match fillSubAux opts record key sk (record.length + 1) 0 kd with
    | .panic => .panic
    | .ok kd2 => fillAll opts record key rest kd2

/-- Assemble the nested value for one entry of the record structure:
scalar copy for an empty sub-field list, otherwise probe the array length
with the first sub-field and fill all sub-fields. -/
def assembleEntry (opts : CSVOptions) (record : FlatRecord) (key : String)
    (subKeys : List String) : GoResult NestedValue :=
  match subKeys with
  | [] => .ok (.str ((alookup record key).getD ""))
  | s0 :: _ =>
    let length := probeLen opts record key s0
    match fillAll opts record key subKeys (List.replicate length []) with
    | .panic => .panic
    | .ok kd => .ok (.arr kd)

/-- The `for key, subKeys := range recordStructure` loop of `recordToMap`,
accumulating the result map. -/
def recordToMapAux (opts : CSVOptions) (record : FlatRecord) :
    List (String × List String) → NestedRecord → GoResult NestedRecord
  | [], acc => .ok acc
  | (key, subKeys) :: rest, acc =>
    match assembleEntry opts record key subKeys with
    | .panic => .panic
    | .ok v => recordToMapAux opts record rest (aset acc key v)

/-- Go `recordToMap`: build the nested record for one flat record from the
shared structure descriptor. -/
def recordToMap (opts : CSVOptions) (st : List (String × List String))
    (record : FlatRecord) : GoResult NestedRecord :=
  recordToMapAux opts record st []

/-- Quote-stripping normalization of one value:
`strings.Replace(v, "\"", "", -1)`. -/
def cleanValue (v : String) : String :=
  ⟨goReplaceAll ['"'] [] (v.data.length + 1) v.data⟩

/-- The in-place cleanup loop of `ToMap` applied to one record: every value
is quote-stripped, keys untouched. -/
def cleanRecord (r : FlatRecord) : FlatRecord :=
  r.map fun kv => (kv.1, cleanValue kv.2)

/-- The per-record loop of `ToMap`: assemble every (already cleaned)
record in order, aborting on a panic. -/
def toMapLoop (opts : CSVOptions) (st : List (String × List String)) :
    List FlatRecord → GoResult (List NestedRecord)
  | [] => .ok []
  | r :: rest =>
    match recordToMap opts st r with
    | .panic => .panic
    | .ok m =>
      match toMapLoop opts st rest with
      | .panic => .panic
      | .ok ms => .ok (m :: ms)

/-- Go `ToMap`: quote-strip every record in place, infer the structure from
the first record (`csvData[0]`, a run-time panic when the batch is empty),
then assemble every record with the shared structure. -/
def ToMap (opts : CSVOptions) (csvData : List FlatRecord) :
    GoResult (List NestedRecord) :=
  let cleaned := csvData.map cleanRecord
  match cleaned with
  | [] => .panic
  | ex :: _ => toMapLoop opts (getCSVStructure opts ex) cleaned

/-- Scalar classification condition of `getCSVStructure` for one key: too
few delimiter-separated segments, or the segment at the index position is
not accepted by `strconv.Atoi`. -/
def scalarCond (opts : CSVOptions) (k : String) : Prop :=
  (strSplit k opts.ArrayDelimiter).length ≤ opts.IndexPos ∨
    atoi ((strSplit k opts.ArrayDelimiter).getD opts.IndexPos "") = none

instance (opts : CSVOptions) (k : String) : Decidable (scalarCond opts k) := by
  unfold scalarCond; infer_instance

/-- Group key of an array-classified key: the joined prefix segments. -/
def groupKeyOf (opts : CSVOptions) (k : String) : String :=
  strJoin ((strSplit k opts.ArrayDelimiter).take opts.IndexPos) opts.ArrayDelimiter

/-- Sub-field name of an array-classified key: the joined suffix segments. -/
def subKeyOf (opts : CSVOptions) (k : String) : String :=
  strJoin ((strSplit k opts.ArrayDelimiter).drop (opts.IndexPos + 1)) opts.ArrayDelimiter

/-- The single map key whose binding `inferStep` can change when
processing `k`: `k` itself for a scalar-classified key, the group key
otherwise. -/
def touchedKey (opts : CSVOptions) (k : String) : String :=
  if scalarCond opts k then k else groupKeyOf opts k

/-! Association-list (Go map) lemmas. -/

theorem alookup_aset_self {α : Type} (l : List (String × α)) (k : String) (v : α) :
    alookup (aset l k v) k = some v := by
  induction l with
  | nil => simp [aset, alookup]
  | cons h t ih =>
    obtain ⟨k', v'⟩ := h
    by_cases hk : k' = k
    · subst hk; simp [aset, alookup]
    · simp [aset, alookup, hk, ih]

theorem alookup_aset_ne {α : Type} (l : List (String × α)) (k k' : String) (v : α)
    (h : k' ≠ k) : alookup (aset l k v) k' = alookup l k' := by
  induction l with
  | nil => simp [aset, alookup, Ne.symm h]
  | cons hd t ih =>
    obtain ⟨k0, v0⟩ := hd
    by_cases hk : k0 = k
    · subst hk
      simp [aset, alookup, Ne.symm h]
    · simp [aset, alookup, hk, ih]

theorem mem_of_alookup {α : Type} (l : List (String × α)) (k : String) (v : α)
    (h : alookup l k = some v) : (k, v) ∈ l := by
  induction l with
  | nil => simp [alookup] at h
  | cons hd t ih =>
    obtain ⟨k0, v0⟩ := hd
    by_cases hk : k0 = k
    · subst hk
      simp [alookup] at h
      simp [h]
    · simp [alookup, hk] at h
      exact List.mem_cons_of_mem _ (ih h)

theorem mem_keys_of_alookup {α : Type} (l : List (String × α)) (k : String) (v : α)
    (h : alookup l k = some v) : k ∈ l.map Prod.fst := by
  have := mem_of_alookup l k v h
  exact List.mem_map_of_mem Prod.fst this

theorem alookup_of_mem_nodup {α : Type} (l : List (String × α)) (k : String) (v : α)
    (hn : (l.map Prod.fst).Nodup) (hm : (k, v) ∈ l) : alookup l k = some v := by
  induction l with
  | nil => simp at hm
  | cons hd t ih =>
    obtain ⟨k0, v0⟩ := hd
    simp only [List.map_cons, List.nodup_cons] at hn
    rcases List.mem_cons.mp hm with heq | hmt
    · obtain ⟨h1, h2⟩ := Prod.mk.injEq .. ▸ heq
      cases heq
      simp [alookup]
    · have hk : k0 ≠ k := by
        rintro rfl
        exact hn.1 (List.mem_map_of_mem Prod.fst hmt)
      simp [alookup, hk, ih hn.2 hmt]

theorem keys_aset {α : Type} (l : List (String × α)) (k : String) (v : α) :
    (aset l k v).map Prod.fst =
      if k ∈ l.map Prod.fst then l.map Prod.fst else l.map Prod.fst ++ [k] := by
  induction l with
  | nil => simp [aset]
  | cons hd t ih =>
    obtain ⟨k0, v0⟩ := hd
    by_cases hk : k0 = k
    · subst hk; simp [aset]
    · have hk' : ¬k = k0 := fun hh => hk hh.symm
      by_cases hm : k ∈ t.map Prod.fst
      · simp [aset, hk, ih, hm, hk', List.mem_cons]
      · simp [aset, hk, ih, hm, hk', List.mem_cons]

theorem nodup_keys_aset {α : Type} (l : List (String × α)) (k : String) (v : α)
    (hn : (l.map Prod.fst).Nodup) : ((aset l k v).map Prod.fst).Nodup := by
  rw [keys_aset]
  split
  · exact hn
  · next hnk =>
    simp [List.nodup_append, hn, hnk]

theorem snd_mem_aset {α : Type} (l : List (String × α)) (k : String) (v : α)
    (P : α → Prop) (hl : ∀ e ∈ l, P e.2) (hv : P v) :
    ∀ e ∈ aset l k v, P e.2 := by
  induction l with
  | nil =>
    intro e he
    simp only [aset, List.mem_singleton] at he
    subst he; exact hv
  | cons hd t ih =>
    obtain ⟨k0, v0⟩ := hd
    intro e he
    by_cases hk : k0 = k
    · subst hk
      simp only [aset, if_pos rfl] at he
      rcases List.mem_cons.mp he with he1 | hm
      · subst he1; exact hv
      · exact hl e (List.mem_cons_of_mem _ hm)
    · simp only [aset, if_neg hk] at he
      rcases List.mem_cons.mp he with he1 | hm
      · subst he1; exact hl (k0, v0) (List.mem_cons.mpr (Or.inl rfl))
      · exact ih (fun x hx => hl x (List.mem_cons_of_mem _ hx)) e hm

/-! Decimal rendering: round-trip and injectivity, needed to show that
distinct probe indices yield distinct composite keys. -/

theorem digitsVal_append (xs : List Char) (c : Char) :
    digitsVal (xs ++ [c]) = digitsVal xs * 10 + (c.toNat - 48) := by
  simp [digitsVal, List.foldl_append]

theorem digitsVal_digitChar10 (d : Nat) (hd : d < 10) :
    digitsVal [digitChar10 d] = d := by
  interval_cases d <;> rfl

theorem digitsVal_toDigitsAux (fuel n : Nat) (h : n < fuel) :
    digitsVal (toDigitsAux fuel n) = n := by
  induction fuel generalizing n with
  | zero => omega
  | succ fuel ih =>
    by_cases h10 : n < 10
    · simp [toDigitsAux, h10, digitsVal_digitChar10 n h10]
    · have hn : 0 < n := by omega
      have hdiv : n / 10 < n := Nat.div_lt_self hn (by omega)
      have hfuel : n / 10 < fuel := by omega
      simp only [toDigitsAux, if_neg h10]
      rw [digitsVal_append, ih _ hfuel]
      have hm : n % 10 < 10 := Nat.mod_lt _ (by omega)
      have : (digitChar10 (n % 10)).toNat - 48 = n % 10 := by
        have := digitsVal_digitChar10 (n % 10) hm
        simpa [digitsVal] using this
      rw [this]
      omega

theorem itoa_injective : Function.Injective itoa := by
  intro m n h
  have hd : toDigitsAux (m + 1) m = toDigitsAux (n + 1) n := by
    have := congrArg String.data h
    simpa [itoa] using this
  have hm := digitsVal_toDigitsAux (m + 1) m (Nat.lt_succ_self m)
  have hn := digitsVal_toDigitsAux (n + 1) n (Nat.lt_succ_self n)
  rw [← hm, ← hn, hd]

theorem strJoin_three (a b c d : String) :
    (strJoin [a, b, c] d).data = a.data ++ d.data ++ (b.data ++ d.data ++ c.data) := by
  simp [strJoin, joinL]

theorem compositeKey_injective (opts : CSVOptions) (key subKey : String) :
    Function.Injective (fun i => compositeKey opts key i subKey) := by
  intro i j h
  simp only [compositeKey] at h
  have hdata := congrArg String.data h
  rw [strJoin_three, strJoin_three] at hdata
  have h1 := List.append_cancel_left hdata
  have h2 : (itoa i).data ++ opts.ArrayDelimiter.data =
      (itoa j).data ++ opts.ArrayDelimiter.data := by
    have := List.append_cancel_right h1
    exact this
  have h3 : (itoa i).data = (itoa j).data := List.append_cancel_right h2
  exact itoa_injective (String.ext h3)

/-! Termination of the length probe: a record with `n` bindings cannot
contain `n + 1` distinct keys, so some probe index below `n + 1` misses. -/

theorem exists_probe_miss (opts : CSVOptions) (record : FlatRecord)
    (key subKey : String) :
    ¬(∀ i, i < record.length + 1 →
        (alookup record (compositeKey opts key i subKey)).isSome = true) := by
  intro h
  have hinj := compositeKey_injective opts key subKey
  set L := (List.range (record.length + 1)).map
    (fun i => compositeKey opts key i subKey) with hL
  have hnd : L.Nodup := (List.nodup_range _).map hinj
  have hsub : L ⊆ record.map Prod.fst := by
    intro x hx
    rw [hL] at hx
    obtain ⟨i, hi, rfl⟩ := List.mem_map.mp hx
    have hi' := List.mem_range.mp hi
    have := h i hi'
    obtain ⟨v, hv⟩ := Option.isSome_iff_exists.mp this
    exact mem_keys_of_alookup record _ v hv
  have hle := (List.subperm_of_subset hnd hsub).length_le
  simp [hL] at hle

/-! Characterization of the probed array length. -/

theorem probeLenAux_spec (opts : CSVOptions) (record : FlatRecord)
    (key subKey : String) :
    ∀ fuel start,
      (∀ i, i < start → (alookup record (compositeKey opts key i subKey)).isSome = true) →
      start + fuel = record.length + 1 →
      ((∀ i, i < probeLenAux opts record key subKey fuel start →
          (alookup record (compositeKey opts key i subKey)).isSome = true) ∧
        alookup record
          (compositeKey opts key (probeLenAux opts record key subKey fuel start) subKey)
          = none) := by
  intro fuel
  induction fuel with
  | zero =>
    intro start hpre harith
    exfalso
    refine exists_probe_miss opts record key subKey ?_
    intro i hi
    exact hpre i (by omega)
  | succ fuel ih =>
    intro start hpre harith
    cases hx : alookup record (compositeKey opts key start subKey) with
    | none =>
      have hred : probeLenAux opts record key subKey (fuel + 1) start = start := by
        simp [probeLenAux, hx]
      rw [hred]
      exact ⟨hpre, hx⟩
    | some v =>
      have hpre' : ∀ i, i < start + 1 →
          (alookup record (compositeKey opts key i subKey)).isSome = true := by
        intro i hi
        rcases Nat.lt_succ_iff_lt_or_eq.mp hi with hlt | heq
        · exact hpre i hlt
        · subst heq; simp [hx]
      have hred : probeLenAux opts record key subKey (fuel + 1) start =
          probeLenAux opts record key subKey fuel (start + 1) := by
        simp [probeLenAux, hx]
      rw [hred]
      exact ih (start + 1) hpre' (by omega)

theorem probeLen_spec (opts : CSVOptions) (record : FlatRecord) (key subKey : String) :
    (∀ i, i < probeLen opts record key subKey →
        (alookup record (compositeKey opts key i subKey)).isSome = true) ∧
      alookup record (compositeKey opts key (probeLen opts record key subKey) subKey)
        = none := by
  exact probeLenAux_spec opts record key subKey (record.length + 1) 0
    (by intro i hi; omega) (by omega)

theorem probeLen_unique (opts : CSVOptions) (record : FlatRecord) (key subKey : String)
    (n : Nat)
    (hall : ∀ i, i < n → (alookup record (compositeKey opts key i subKey)).isSome = true)
    (hmiss : alookup record (compositeKey opts key n subKey) = none) :
    n = probeLen opts record key subKey := by
  obtain ⟨hall', hmiss'⟩ := probeLen_spec opts record key subKey
  rcases Nat.lt_trichotomy n (probeLen opts record key subKey) with hlt | heq | hgt
  · have := hall' n hlt
    rw [hmiss] at this
    simp at this
  · exact heq
  · have := hall _ hgt
    rw [hmiss'] at this
    simp at this

/-! Length preservation of the fill loops and lookup behaviour of the
assembly fold. -/

theorem fillSubAux_ok_length (opts : CSVOptions) (record : FlatRecord)
    (key subKey : String) :
    ∀ fuel index kd kd',
      fillSubAux opts record key subKey fuel index kd = .ok kd' →
      kd'.length = kd.length := by
  intro fuel
  induction fuel with
  | zero =>
    intro index kd kd' h
    simp only [fillSubAux] at h
    cases h
    rfl
  | succ fuel ih =>
    intro index kd kd' h
    cases hx : alookup record (compositeKey opts key index subKey) with
    | none =>
      simp only [fillSubAux, hx] at h
      cases h
      rfl
    | some val =>
      simp only [fillSubAux, hx] at h
      by_cases hlt : index < kd.length
      · rw [dif_pos hlt] at h
        have := ih (index + 1) _ kd' h
        simpa using this
      · rw [dif_neg hlt] at h
        cases h

theorem fillAll_ok_length (opts : CSVOptions) (record : FlatRecord) (key : String) :
    ∀ subKeys kd kd',
      fillAll opts record key subKeys kd = .ok kd' → kd'.length = kd.length := by
  intro subKeys
  induction subKeys with
  | nil =>
    intro kd kd' h
    simp only [fillAll] at h
    cases h
    rfl
  | cons sk rest ih =>
    intro kd kd' h
    simp only [fillAll] at h
    cases hx : fillSubAux opts record key sk (record.length + 1) 0 kd with
    | panic => rw [hx] at h; cases h
    | ok kd2 =>
      rw [hx] at h
      have h1 := fillSubAux_ok_length opts record key sk _ _ _ _ hx
      have h2 := ih kd2 kd' h
      omega

/-- The assembled value for an array-classified entry is an array whose
length is the probed length for the first sub-field name. -/
theorem assembleEntry_array (opts : CSVOptions) (record : FlatRecord) (key : String)
    (s0 : String) (rest : List String) (v : NestedValue)
    (h : assembleEntry opts record key (s0 :: rest) = .ok v) :
    ∃ a, v = .arr a ∧ a.length = probeLen opts record key s0 := by
  simp only [assembleEntry] at h
  cases hx : fillAll opts record key (s0 :: rest)
      (List.replicate (probeLen opts record key s0) []) with
  | panic => rw [hx] at h; cases h
  | ok kd =>
    rw [hx] at h
    cases h
    refine ⟨kd, rfl, ?_⟩
    have := fillAll_ok_length opts record key _ _ _ hx
    simpa using this

theorem recordToMapAux_ok_notmem (opts : CSVOptions) (record : FlatRecord) :
    ∀ (entries : List (String × List String)) (acc out : NestedRecord) (g : String),
      g ∉ entries.map Prod.fst →
      recordToMapAux opts record entries acc = .ok out →
      alookup out g = alookup acc g := by
  intro entries
  induction entries with
  | nil =>
    intro acc out g _ h
    simp only [recordToMapAux] at h
    cases h
    rfl
  | cons hd rest ih =>
    obtain ⟨k0, s0⟩ := hd
    intro acc out g hg h
    simp only [List.map_cons, List.mem_cons] at hg
    push_neg at hg
    simp only [recordToMapAux] at h
    cases hx : assembleEntry opts record k0 s0 with
    | panic => rw [hx] at h; cases h
    | ok v =>
      rw [hx] at h
      have := ih (aset acc k0 v) out g hg.2 h
      rw [this]
      exact alookup_aset_ne acc k0 g v hg.1

/-- Processing a structure entry `(g, sk)` in a duplicate-free structure:
whenever the whole fold returns normally, that entry's assembled value is
the one bound to `g` in the output. -/
theorem recordToMapAux_ok_lookup (opts : CSVOptions) (record : FlatRecord) :
    ∀ (entries : List (String × List String)) (acc out : NestedRecord)
      (g : String) (sk : List String),
      (entries.map Prod.fst).Nodup →
      (g, sk) ∈ entries →
      recordToMapAux opts record entries acc = .ok out →
      ∃ v, assembleEntry opts record g sk = .ok v ∧ alookup out g = some v := by
  intro entries
  induction entries with
  | nil =>
    intro acc out g sk _ hm _
    simp at hm
  | cons hd rest ih =>
    obtain ⟨k0, s0⟩ := hd
    intro acc out g sk hnd hm h
    simp only [List.map_cons, List.nodup_cons] at hnd
    simp only [recordToMapAux] at h
    cases hx : assembleEntry opts record k0 s0 with
    | panic => rw [hx] at h; cases h
    | ok v =>
      rw [hx] at h
      rcases List.mem_cons.mp hm with he | hmr
      · have hg : g = k0 := congrArg Prod.fst he
        have hs : sk = s0 := congrArg Prod.snd he
        subst hg; subst hs
        refine ⟨v, hx, ?_⟩
        have := recordToMapAux_ok_notmem opts record rest (aset acc g v) out g hnd.1 h
        rw [this]
        exact alookup_aset_self acc g v
      · exact ih (aset acc k0 v) out g sk hnd.2 hmr h

/-! Branch analysis of `inferStep` and invariants of the inference fold. -/

theorem inferStep_scalar (opts : CSVOptions) (st : List (String × List String))
    (k : String) (h : scalarCond opts k) : inferStep opts st k = aset st k [] := by
  rcases h with h1 | h2
  · simp [inferStep, h1]
  · by_cases h1 : (strSplit k opts.ArrayDelimiter).length ≤ opts.IndexPos
    · simp [inferStep, h1]
    · simp only [List.getD_eq_getElem?_getD] at h2
      simp [inferStep, h1, h2]

theorem inferStep_array (opts : CSVOptions) (st : List (String × List String))
    (k : String) (h1 : ¬(strSplit k opts.ArrayDelimiter).length ≤ opts.IndexPos)
    (x : Int) (h2 : atoi ((strSplit k opts.ArrayDelimiter).getD opts.IndexPos "") = some x) :
    inferStep opts st k =
      match alookup st (groupKeyOf opts k) with
      | none => aset st (groupKeyOf opts k) [subKeyOf opts k]
      | some l => aset st (groupKeyOf opts k) (subKeysInsert l (subKeyOf opts k)) := by
  have h2' : atoi ((strSplit k opts.ArrayDelimiter)[opts.IndexPos]?.getD "") = some x := by
    simpa only [List.getD_eq_getElem?_getD] using h2
  simp [inferStep, h1, h2', groupKeyOf, subKeyOf]

theorem not_scalarCond_elim (opts : CSVOptions) (k : String) (hs : ¬scalarCond opts k) :
    ¬(strSplit k opts.ArrayDelimiter).length ≤ opts.IndexPos ∧
      ∃ x, atoi ((strSplit k opts.ArrayDelimiter).getD opts.IndexPos "") = some x := by
  constructor
  · intro hc; exact hs (Or.inl hc)
  · cases hx : atoi ((strSplit k opts.ArrayDelimiter).getD opts.IndexPos "") with
    | none => exact absurd (Or.inr hx) hs
    | some x => exact ⟨x, rfl⟩

theorem alookup_inferStep_ne (opts : CSVOptions) (st : List (String × List String))
    (k' g : String) (h : touchedKey opts k' ≠ g) :
    alookup (inferStep opts st k') g = alookup st g := by
  by_cases hs : scalarCond opts k'
  · rw [inferStep_scalar opts st k' hs]
    have hk : k' ≠ g := by simpa [touchedKey, hs] using h
    exact alookup_aset_ne st k' g [] (Ne.symm hk)
  · have hg : groupKeyOf opts k' ≠ g := by simpa [touchedKey, hs] using h
    obtain ⟨h1, x, hx⟩ := not_scalarCond_elim opts k' hs
    rw [inferStep_array opts st k' h1 x hx]
    cases h3 : alookup st (groupKeyOf opts k') with
    | none => exact alookup_aset_ne _ _ _ _ (Ne.symm hg)
    | some l => exact alookup_aset_ne _ _ _ _ (Ne.symm hg)

theorem alookup_inferStep_self_scalar (opts : CSVOptions)
    (st : List (String × List String)) (k : String) (h : scalarCond opts k) :
    alookup (inferStep opts st k) k = some [] := by
  rw [inferStep_scalar opts st k h]
  exact alookup_aset_self st k []

theorem nodup_keys_inferStep (opts : CSVOptions) (st : List (String × List String))
    (k : String) (h : (st.map Prod.fst).Nodup) :
    ((inferStep opts st k).map Prod.fst).Nodup := by
  by_cases hs : scalarCond opts k
  · rw [inferStep_scalar opts st k hs]
    exact nodup_keys_aset st k [] h
  · obtain ⟨h1, x, hx⟩ := not_scalarCond_elim opts k hs
    rw [inferStep_array opts st k h1 x hx]
    cases h3 : alookup st (groupKeyOf opts k) with
    | none => exact nodup_keys_aset _ _ _ h
    | some l => exact nodup_keys_aset _ _ _ h

theorem nodup_subKeysInsert (l : List String) (s : String) (h : l.Nodup) :
    (subKeysInsert l s).Nodup := by
  unfold subKeysInsert
  split
  · exact h
  · next hs => simp [List.nodup_append, h, hs]

theorem subfields_nodup_inferStep (opts : CSVOptions)
    (st : List (String × List String)) (k : String)
    (h : ∀ e ∈ st, e.2.Nodup) : ∀ e ∈ inferStep opts st k, e.2.Nodup := by
  by_cases hs : scalarCond opts k
  · rw [inferStep_scalar opts st k hs]
    exact snd_mem_aset st k [] _ h List.nodup_nil
  · obtain ⟨h1, x, hx⟩ := not_scalarCond_elim opts k hs
    rw [inferStep_array opts st k h1 x hx]
    cases h3 : alookup st (groupKeyOf opts k) with
    | none => exact snd_mem_aset st _ _ _ h (List.nodup_singleton _)
    | some l =>
      have hl : l.Nodup := h _ (mem_of_alookup st _ l h3)
      exact snd_mem_aset st _ _ _ h (nodup_subKeysInsert l _ hl)

theorem nodup_keys_infer_fold (opts : CSVOptions) :
    ∀ (ex : FlatRecord) (st : List (String × List String)),
      (st.map Prod.fst).Nodup →
      ((ex.foldl (fun s kv => inferStep opts s kv.1) st).map Prod.fst).Nodup := by
  intro ex
  induction ex with
  | nil => intro st h; exact h
  | cons hd t ih =>
    intro st h
    exact ih _ (nodup_keys_inferStep opts st hd.1 h)

/-- The structure descriptor has duplicate-free group keys. -/
theorem nodup_keys_getCSVStructure (opts : CSVOptions) (ex : FlatRecord) :
    ((getCSVStructure opts ex).map Prod.fst).Nodup :=
  nodup_keys_infer_fold opts ex [] List.nodup_nil

theorem subfields_nodup_infer_fold (opts : CSVOptions) :
    ∀ (ex : FlatRecord) (st : List (String × List String)),
      (∀ e ∈ st, e.2.Nodup) →
      ∀ e ∈ ex.foldl (fun s kv => inferStep opts s kv.1) st, e.2.Nodup := by
  intro ex
  induction ex with
  | nil => intro st h; exact h
  | cons hd t ih =>
    intro st h
    exact ih _ (subfields_nodup_inferStep opts st hd.1 h)

/-- Every sub-field list of the structure descriptor is duplicate-free. -/
theorem subfields_nodup_getCSVStructure (opts : CSVOptions) (ex : FlatRecord) :
    ∀ e ∈ getCSVStructure opts ex, e.2.Nodup :=
  subfields_nodup_infer_fold opts ex [] (by intro e he; simp at he)

/-- Inference fold for a scalar-classified key `k` that no other processed
key can touch: once `k` is processed its binding is the empty sub-field
list, and it stays that way. -/
theorem infer_fold_scalar_lookup (opts : CSVOptions) (k : String)
    (hk : scalarCond opts k) :
    ∀ (kl : List (String × String)) (st : List (String × List String)),
      (∀ k', k' ∈ kl.map Prod.fst → k' ≠ k → touchedKey opts k' ≠ k) →
      (kl.map Prod.fst).Nodup →
      ((k ∈ kl.map Prod.fst →
          alookup (kl.foldl (fun s kv => inferStep opts s kv.1) st) k = some []) ∧
        (k ∉ kl.map Prod.fst →
          alookup (kl.foldl (fun s kv => inferStep opts s kv.1) st) k = alookup st k)) := by
  intro kl
  induction kl with
  | nil =>
    intro st _ _
    exact ⟨by intro h; simp at h, fun _ => rfl⟩
  | cons hd t ih =>
    intro st hcol hnd
    obtain ⟨k0, v0⟩ := hd
    simp only [List.map_cons, List.nodup_cons] at hnd
    have hcol' : ∀ k', k' ∈ t.map Prod.fst → k' ≠ k → touchedKey opts k' ≠ k := by
      intro k' hm hne
      exact hcol k' (List.mem_cons_of_mem _ hm) hne
    by_cases hk0 : k0 = k
    · subst hk0
      have hst1 : alookup (inferStep opts st k0) k0 = some [] :=
        alookup_inferStep_self_scalar opts st k0 hk
      have hnot : k0 ∉ t.map Prod.fst := hnd.1
      constructor
      · intro _
        have := (ih (inferStep opts st k0) hcol' hnd.2).2 hnot
        simpa [List.foldl_cons] using this.trans hst1
      · intro habs
        exact absurd (List.mem_cons.mpr (Or.inl rfl)) habs
    · have htouch : touchedKey opts k0 ≠ k :=
        hcol k0 (List.mem_cons.mpr (Or.inl rfl)) hk0
      have hpres : alookup (inferStep opts st k0) k = alookup st k :=
        alookup_inferStep_ne opts st k0 k htouch
      have hih := ih (inferStep opts st k0) hcol' hnd.2
      constructor
      · intro hm
        rcases List.mem_cons.mp hm with he | hmt
        · exact absurd he.symm hk0
        · simpa [List.foldl_cons] using hih.1 hmt
      · intro hm
        have hmt : k ∉ t.map Prod.fst := by
          intro hc; exact hm (List.mem_cons_of_mem _ hc)
        have := hih.2 hmt
        simpa [List.foldl_cons] using this.trans hpres

/-! Quote-stripping: `strings.Replace(v, "\"", "", -1)` removes exactly the
quote characters. -/

theorem goReplaceAll_quote :
    ∀ (fuel : Nat) (s : List Char), s.length ≤ fuel →
      goReplaceAll ['"'] [] fuel s = s.filter (fun c => c ≠ '"') := by
  intro fuel
  induction fuel with
  | zero =>
    intro s h
    have : s = [] := List.eq_nil_of_length_eq_zero (by omega)
    subst this
    rfl
  | succ fuel ih =>
    intro s h
    cases s with
    | nil => rfl
    | cons c rest =>
      by_cases hc : c = '"'
      · subst hc
        have hstart : startsWithL ['"'] ('"' :: rest) = true := by
          simp [startsWithL]
        simp only [goReplaceAll, hstart, if_true, List.nil_append]
        have : ('"' :: rest).drop (['"'] : List Char).length = rest := rfl
        rw [this, ih rest (by simpa using Nat.le_of_succ_le_succ (by simpa using h))]
        simp
      · have hstart : startsWithL ['"'] (c :: rest) = false := by
          simp [startsWithL, Ne.symm hc]
        simp only [goReplaceAll, hstart, if_false]
        rw [ih rest (by simpa using Nat.le_of_succ_le_succ (by simpa using h))]
        simp [List.filter_cons, hc]

theorem cleanValue_data (s : String) :
    (cleanValue s).data = s.data.filter (fun c => c ≠ '"') := by
  unfold cleanValue
  exact goReplaceAll_quote (s.data.length + 1) s.data (by omega)

theorem alookup_cleanRecord (r : FlatRecord) (k : String) :
    alookup (cleanRecord r) k = (alookup r k).map cleanValue := by
  induction r with
  | nil => rfl
  | cons hd t ih =>
    obtain ⟨k0, v0⟩ := hd
    simp only [cleanRecord, List.map_cons] at ih ⊢
    by_cases hk : k0 = k
    · subst hk; simp [alookup]
    · simp only [alookup, if_neg hk]
      exact ih

/-! Claim theorems. -/

/-- C1: the claim says a zero-record batch yields the empty-batch error
without crashing.  The code has no such error path: `ToMap` dereferences
`csvData[0]` before any emptiness check, so the empty batch is a run-time
panic (index out of range), for every option set.  This theorem evaluates
the embedded `ToMap` at the failing input. -/
theorem toMap_empty_batch_panics : ∀ opts : CSVOptions, ToMap opts [] = .panic := by
  intro opts
  rfl

/-- C2: the claim says array assembly probes every sub-field only at
indices `0..length-1` and never fails or goes out of bounds.  In the code
each non-first sub-field loop is bounded only by its own first missing
composite key, and writes through `keyData[index]`: a record whose first
sub-field is absent at an index where a later sub-field is present makes
Go index a slice out of range.  Concretely, the structure inferred from
`{a.0.x, a.0.y}` applied to the record `{a.0.y: 9}` probes the sub-field
`y` at index `0` while the probed length (from `x`) is `0`, and the batch
conversion panics. -/
theorem toMap_nonfirst_subfield_overrun_panics :
    ToMap ⟨".", 1⟩ [[("a.0.x", "1"), ("a.0.y", "2")], [("a.0.y", "9")]] = .panic := by
  decide

/-- C3 counterexample: the claim says a key whose index segment parses as
a negative integer (like `a.-1.x`) is registered as a scalar under the
full original key.  The code uses `strconv.Atoi`, which accepts negative
integers, so `a.-1.x` is array-classified: the descriptor holds group key
`a` with sub-field `x` and has no binding for the full key `a.-1.x`. -/
theorem negative_index_segment_goes_array :
    alookup (getCSVStructure ⟨".", 1⟩ [("a.-1.x", "v")]) "a.-1.x" = none ∧
      alookup (getCSVStructure ⟨".", 1⟩ [("a.-1.x", "v")]) "a" = some ["x"] := by
  decide

/-- C3 amended: a key with enough segments is array-classified exactly
when `strconv.Atoi` accepts the segment at the index position — that is,
any optionally-signed base-10 integer in the 64-bit range, negative values
included; only unparseable segments (and keys with too few segments) fall
through to scalar registration under the full key.  In particular
`atoi "-1"` succeeds, and converting `{a.-1.x: 7}` yields an empty array
under group key `a` (probing starts at index 0, which is absent). -/
theorem inference_classifies_by_atoi :
    (∀ (opts : CSVOptions) (k v : String),
      getCSVStructure opts [(k, v)] =
        if (strSplit k opts.ArrayDelimiter).length ≤ opts.IndexPos then [(k, [])]
        else
          match atoi ((strSplit k opts.ArrayDelimiter).getD opts.IndexPos "") with
          | some _ => [(groupKeyOf opts k, [subKeyOf opts k])]
          | none => [(k, [])]) ∧
      (atoi "-1").isSome = true ∧
      ToMap ⟨".", 1⟩ [[("a.-1.x", "7")]] = .ok [[("a", .arr [])]] := by
  refine ⟨?_, by decide, by decide⟩
  intro opts k v
  have hfold : getCSVStructure opts [(k, v)] = inferStep opts [] k := rfl
  rw [hfold]
  by_cases h1 : (strSplit k opts.ArrayDelimiter).length ≤ opts.IndexPos
  · rw [if_pos h1, inferStep_scalar opts [] k (Or.inl h1)]
    rfl
  · rw [if_neg h1]
    cases hx : atoi ((strSplit k opts.ArrayDelimiter).getD opts.IndexPos "") with
    | none =>
      rw [inferStep_scalar opts [] k (Or.inr hx)]
      rfl
    | some x =>
      rw [inferStep_array opts [] k h1 x hx]
      rfl

/-- C4: for an array-classified group key `g` with first sub-field `s0`,
whenever the assembly of a record returns normally, the array bound to `g`
in the output has as its length the unique `n` such that the composite key
`g.i.s0` is present in the record for every `i < n` and absent for
`i = n`; in particular a record with fewer (contiguous) entries than the
inference example gets a correspondingly shorter array. -/
theorem array_length_is_unique_probe_count :
    ∀ (opts : CSVOptions) (st : List (String × List String)) (record : FlatRecord)
      (g s0 : String) (rest : List String) (out : NestedRecord),
      (st.map Prod.fst).Nodup →
      alookup st g = some (s0 :: rest) →
      recordToMap opts st record = .ok out →
      ∃ a, alookup out g = some (.arr a) ∧
        (∀ i, i < a.length → (alookup record (compositeKey opts g i s0)).isSome = true) ∧
        alookup record (compositeKey opts g a.length s0) = none ∧
        (∀ n, (∀ i, i < n → (alookup record (compositeKey opts g i s0)).isSome = true) →
          alookup record (compositeKey opts g n s0) = none → n = a.length) := by
  intro opts st record g s0 rest out hnd hlook hok
  have hmem := mem_of_alookup st g _ hlook
  simp only [recordToMap] at hok
  obtain ⟨v, hv, hout⟩ :=
    recordToMapAux_ok_lookup opts record st [] out g (s0 :: rest) hnd hmem hok
  obtain ⟨a, rfl, hlen⟩ := assembleEntry_array opts record g s0 rest v hv
  obtain ⟨hall, hmiss⟩ := probeLen_spec opts record g s0
  refine ⟨a, hout, ?_, ?_, ?_⟩
  · rw [hlen]; exact hall
  · rw [hlen]; exact hmiss
  · intro n h1 h2
    rw [hlen]
    exact probeLen_unique opts record g s0 n h1 h2

/-- C4 witness: the structure `{a: [x, y]}` (inferred from a two-entry
example) applied to a record with a single entry yields an array of length
one, with the probe characterization holding at that record. -/
theorem array_length_is_unique_probe_count_witness :
    ∃ a, alookup [("a", NestedValue.arr [[("x", "3"), ("y", "4")]])] "a"
        = some (.arr a) ∧
      (∀ i, i < a.length →
        (alookup [("a.0.x", "3"), ("a.0.y", "4")]
          (compositeKey ⟨".", 1⟩ "a" i "x")).isSome = true) ∧
      alookup [("a.0.x", "3"), ("a.0.y", "4")]
        (compositeKey ⟨".", 1⟩ "a" a.length "x") = none ∧
      (∀ n, (∀ i, i < n →
          (alookup [("a.0.x", "3"), ("a.0.y", "4")]
            (compositeKey ⟨".", 1⟩ "a" i "x")).isSome = true) →
        alookup [("a.0.x", "3"), ("a.0.y", "4")]
          (compositeKey ⟨".", 1⟩ "a" n "x") = none → n = a.length) :=
  array_length_is_unique_probe_count ⟨".", 1⟩ [("a", ["x", "y"])]
    [("a.0.x", "3"), ("a.0.y", "4")] "a" "x" ["y"]
    [("a", NestedValue.arr [[("x", "3"), ("y", "4")]])]
    (by decide) (by decide) (by decide)

/-- C5: with delimiter `.` and index position 1, the single flat record
`{a.0.x:1, a.0.y:2, a.1.x:3, a.1.y:4}` converts to the nested record
`{a: [{x:1, y:2}, {x:3, y:4}]}`. -/
theorem two_entry_array_grouping :
    ToMap ⟨".", 1⟩ [[("a.0.x", "1"), ("a.0.y", "2"), ("a.1.x", "3"), ("a.1.y", "4")]] =
      .ok [[("a", .arr [[("x", "1"), ("y", "2")], [("x", "3"), ("y", "4")]])]] := by
  decide

/-- C6: the normalization `ToMap` applies to its input records preserves
the keys, their order and the record count, and maps every value to the
original with all `"` characters removed (and nothing else); a flat value
`"5"` with literal quotes comes out as the scalar `5`. -/
theorem quote_strip_is_only_mutation :
    ∀ (r : FlatRecord) (s : String),
      (cleanRecord r).map Prod.fst = r.map Prod.fst ∧
      (cleanRecord r).length = r.length ∧
      (∀ k, alookup (cleanRecord r) k = (alookup r k).map cleanValue) ∧
      (cleanValue s).data = s.data.filter (fun c => c ≠ '"') ∧
      ToMap ⟨".", 1⟩ [[("k", "\"5\"")]] = .ok [[("k", .str "5")]] := by
  intro r s
  refine ⟨?_, ?_, ?_, cleanValue_data s, by decide⟩
  · simp [cleanRecord]
  · simp [cleanRecord]
  · intro k
    exact alookup_cleanRecord r k

/-- C7 counterexample: the claim says inferring twice from the same
example record yields identical descriptors with identical sub-field
sequences.  The inference loop is a Go `for k := range example` whose
iteration order is unspecified: two enumerations of the same record (a
transposition, hence equal as maps) yield different sub-field orders
(`[x, y]` versus `[y, x]`), so the descriptors are not identical. -/
theorem inference_depends_on_iteration_order :
    List.Perm ([("a.0.x", "1"), ("a.0.y", "2")] : FlatRecord)
      [("a.0.y", "2"), ("a.0.x", "1")] ∧
    getCSVStructure ⟨".", 1⟩ [("a.0.x", "1"), ("a.0.y", "2")] ≠
      getCSVStructure ⟨".", 1⟩ [("a.0.y", "2"), ("a.0.x", "1")] := by
  constructor
  · exact List.Perm.swap _ _ _
  · decide

/-- C7 amended: inference is a pure function of the enumerated example
(re-running it over the same enumeration gives the identical descriptor),
the group keys are duplicate-free, and every sub-field sequence is
duplicate-free in first-seen order; identical descriptors across two runs
are only guaranteed for the same enumeration order, not for the same
underlying record. -/
theorem inference_deterministic_and_duplicate_free :
    ∀ (opts : CSVOptions) (ex : FlatRecord),
      getCSVStructure opts ex = getCSVStructure opts ex ∧
      ((getCSVStructure opts ex).map Prod.fst).Nodup ∧
      (∀ e ∈ getCSVStructure opts ex, e.2.Nodup) := by
  intro opts ex
  exact ⟨rfl, nodup_keys_getCSVStructure opts ex,
    subfields_nodup_getCSVStructure opts ex⟩

/-- C7 witness: the membership hypothesis of the third conjunct
discharged at a concrete descriptor entry. -/
theorem inference_deterministic_and_duplicate_free_witness :
    (("a", ["x"]) : String × List String).2.Nodup :=
  (inference_deterministic_and_duplicate_free ⟨".", 1⟩ [("a.0.x", "1")]).2.2
    ("a", ["x"]) (by decide)

/-- C8 counterexample: the claim says every key that is scalar-eligible
(too few segments or non-numeric index segment) is registered under its
full name with its value passed through.  With the record
`{a: s, a.0.x: v}` enumerated in that order, the scalar registration of
`a` is overwritten by the array registration of `a.0.x` (same group key),
so `a` ends array-typed and the value `s` is dropped from the output. -/
theorem scalar_key_shadowed_by_array_group :
    alookup (getCSVStructure ⟨".", 1⟩ [("a", "s"), ("a.0.x", "v")]) "a" ≠
      some ([] : List String) ∧
    ToMap ⟨".", 1⟩ [[("a", "s"), ("a.0.x", "v")]] =
      .ok [[("a", .arr [[("x", "v")]])]] := by
  decide

/-- C8 amended: a scalar-eligible key `k` is registered with an empty
sub-field set and its value passes through to the output under `k`,
provided no other key of the record is array-classified with group key
equal to `k` (with such a collision, whichever registration the
unspecified iteration order applies last wins). -/
theorem scalar_key_passthrough_without_collision :
    ∀ (opts : CSVOptions) (ex : FlatRecord) (k v : String),
      (ex.map Prod.fst).Nodup →
      (k, v) ∈ ex →
      scalarCond opts k →
      (∀ k', k' ∈ ex.map Prod.fst → k' ≠ k → touchedKey opts k' ≠ k) →
      alookup (getCSVStructure opts ex) k = some [] ∧
      (∀ out, recordToMap opts (getCSVStructure opts ex) ex = .ok out →
        alookup out k = some (.str v)) := by
  intro opts ex k v hnd hmem hsc hcol
  have hkmem : k ∈ ex.map Prod.fst := List.mem_map_of_mem Prod.fst hmem
  have hlook : alookup (getCSVStructure opts ex) k = some [] := by
    have := (infer_fold_scalar_lookup opts k hsc ex [] hcol hnd).1 hkmem
    simpa [getCSVStructure] using this
  refine ⟨hlook, ?_⟩
  intro out hok
  have hndst := nodup_keys_getCSVStructure opts ex
  have hmemst := mem_of_alookup _ k [] hlook
  simp only [recordToMap] at hok
  obtain ⟨w, hw, hout⟩ :=
    recordToMapAux_ok_lookup opts ex (getCSVStructure opts ex) [] out k [] hndst hmemst hok
  have hexk : alookup ex k = some v := alookup_of_mem_nodup ex k v hnd hmem
  have h0 : assembleEntry opts ex k [] = .ok (.str ((alookup ex k).getD "")) := rfl
  rw [h0, hexk] at hw
  simp only [Option.getD_some] at hw
  cases hw
  exact hout

/-- C8 witness: the non-decomposable key `a.b.c` (segment `b` not
numeric) in a one-key record is registered scalar and its value `7`
passes through to the assembled output. -/
theorem scalar_key_passthrough_without_collision_witness :
    alookup (getCSVStructure ⟨".", 1⟩ [("a.b.c", "7")]) "a.b.c" = some [] ∧
      (∀ out, recordToMap ⟨".", 1⟩ (getCSVStructure ⟨".", 1⟩ [("a.b.c", "7")])
          [("a.b.c", "7")] = .ok out →
        alookup out "a.b.c" = some (.str "7")) :=
  scalar_key_passthrough_without_collision ⟨".", 1⟩ [("a.b.c", "7")] "a.b.c" "7"
    (by decide) (by decide) (by decide) (by decide)

/-- C9: a group key with an empty sub-field set is assembled by copying
`record[groupKey]`: the assembled value is always produced (never a
panic), and when the key is absent from the record the Go map read yields
the string zero value, so the output scalar is the empty string. -/
theorem scalar_entry_copies_with_zero_value :
    ∀ (opts : CSVOptions) (st : List (String × List String)) (record : FlatRecord)
      (g : String),
      (assembleEntry opts record g [] = .ok (.str ((alookup record g).getD ""))) ∧
      (∀ out, (st.map Prod.fst).Nodup → alookup st g = some [] →
        recordToMap opts st record = .ok out →
        alookup out g = some (.str ((alookup record g).getD ""))) := by
  intro opts st record g
  refine ⟨rfl, ?_⟩
  intro out hnd hlook hok
  have hmem := mem_of_alookup st g _ hlook
  simp only [recordToMap] at hok
  obtain ⟨v, hv, hout⟩ := recordToMapAux_ok_lookup opts record st [] out g [] hnd hmem hok
  have h0 : assembleEntry opts record g [] = .ok (.str ((alookup record g).getD "")) := rfl
  rw [h0] at hv
  cases hv
  exact hout

/-- C9 witness: assembling the empty record against the scalar structure
`{s: []}` yields the empty string for `s` and does not fail. -/
theorem scalar_entry_copies_with_zero_value_witness :
    alookup [("s", NestedValue.str "")] "s" =
      some (.str ((alookup ([] : FlatRecord) "s").getD "")) :=
  (scalar_entry_copies_with_zero_value ⟨".", 1⟩ [("s", [])] [] "s").2
    [("s", NestedValue.str "")] (by decide) (by decide) (by decide)

/-- C10: a key whose segment at the index position is numeric but which
has no segments after it (such as `a.0`) is array-classified with the
empty string as its sole sub-field name — the documented rule that the
index cannot sit at the end of a column name is not enforced as a scalar
fallback.  Assembly then probes composite keys with a trailing delimiter:
for the record `{a.0: 1}` no probe matches and `a` becomes an empty
array, while a record containing the literal key `a.0.` yields a
sub-object whose field name is the empty string. -/
theorem trailing_index_key_is_array_with_empty_subfield :
    ∀ (opts : CSVOptions) (k v : String),
      (strSplit k opts.ArrayDelimiter).length = opts.IndexPos + 1 →
      (atoi ((strSplit k opts.ArrayDelimiter).getD opts.IndexPos "")).isSome = true →
      getCSVStructure opts [(k, v)] = [(groupKeyOf opts k, [""])] ∧
      ToMap ⟨".", 1⟩ [[("a.0", "1")]] = .ok [[("a", .arr [])]] ∧
      recordToMap ⟨".", 1⟩ [("a", [""])] [("a.0.", "w")] =
        .ok [("a", .arr [[("", "w")]])] := by
  intro opts k v hlen hsome
  have h1 : ¬(strSplit k opts.ArrayDelimiter).length ≤ opts.IndexPos := by omega
  obtain ⟨x, hx⟩ := Option.isSome_iff_exists.mp hsome
  refine ⟨?_, by decide, by decide⟩
  have hfold : getCSVStructure opts [(k, v)] = inferStep opts [] k := rfl
  rw [hfold, inferStep_array opts [] k h1 x hx]
  have hsub : subKeyOf opts k = "" := by
    unfold subKeyOf
    rw [List.drop_eq_nil_of_le (by omega)]
    rfl
  show aset [] (groupKeyOf opts k) [subKeyOf opts k] = [(groupKeyOf opts k, [""])]
  rw [hsub]
  rfl

/-- C10 witness: the classification hypotheses discharged at `a.0` with
delimiter `.` and index position 1. -/
theorem trailing_index_key_is_array_with_empty_subfield_witness :
    getCSVStructure ⟨".", 1⟩ [("a.0", "1")] = [(groupKeyOf ⟨".", 1⟩ "a.0", [""])] ∧
      ToMap ⟨".", 1⟩ [[("a.0", "1")]] = .ok [[("a", .arr [])]] ∧
      recordToMap ⟨".", 1⟩ [("a", [""])] [("a.0.", "w")] =
        .ok [("a", .arr [[("", "w")]])] :=
  trailing_index_key_is_array_with_empty_subfield ⟨".", 1⟩ "a.0" "1"
    (by decide) (by decide)

end Uniparse
